import Mathlib

/-!
Shallow embedding of the knowledge-graph memory store of `echo_mcp_server`
(`src/echo_mcp_server/server.py`).

The store keeps `Memory` nodes (properties `name`, `type`, `observations`)
and directed edges whose label is the relation type, inside a Neo4j
database.  We model the database state as a list of nodes and a list of
edge triples, and translate each Cypher statement issued by the repository
methods into a state transformer.  Row-level result processing
(`load_graph`), the index-creation error handling, the tool-dispatch
try/except wrappers, and the in-process key/value tools are embedded as
well.
-/

namespace EchoMcp

/-- Knowledge-graph entity as declared by the pydantic model `Entity`:
`name` (identity key), `type`, and an ordered list of observation strings.
The same shape describes a stored `Memory` node, whose properties are
exactly these fields. -/
structure Entity where
  name : String
  type : String
  observations : List String
deriving DecidableEq, Repr

/-- Directed relation as declared by the pydantic model `Relation`:
`(source, target, relationType)`, where `relationType` is the structural
edge label.  The same shape describes a stored edge. -/
structure Relation where
  source : String
  target : String
  relationType : String
deriving DecidableEq, Repr

/-- Result shape of every read operation (`KnowledgeGraph` pydantic model). -/
structure KnowledgeGraph where
  entities : List Entity
  relations : List Relation
deriving DecidableEq, Repr

/-- Input shape of `add_observations` (`ObservationAddition` pydantic model). -/
structure ObservationAddition where
  entityName : String
  contents : List String
deriving DecidableEq, Repr

/-- Input shape of `delete_observations` (`ObservationDeletion` pydantic model). -/
structure ObservationDeletion where
  entityName : String
  observations : List String
deriving DecidableEq, Repr

/-- State of the Neo4j database as seen by the store: the `Memory` nodes
and the edges between them (an edge records the `name` of its endpoint
nodes and its label). -/
structure GraphState where
  nodes : List Entity
  edges : List Relation
deriving DecidableEq, Repr

/-- Names of the stored nodes, in storage order. -/
def nodeNames (g : GraphState) : List String :=
  g.nodes.map (fun n => n.name)

/-- Whether a `Memory` node with the given `name` exists (a Cypher
`MATCH (m:Memory { name: nm })` finds at least one row). -/
def nodeExists (g : GraphState) (nm : String) : Prop :=
  ∃ n ∈ g.nodes, n.name = nm

instance (g : GraphState) (nm : String) : Decidable (nodeExists g nm) :=
  List.decidableBEx _ g.nodes

/-- One row of the `create_entities` Cypher statement
(`MERGE (e:Memory { name: entity.name }) SET e += entity {.type, .observations}`):
if a node with that name exists its `type` and `observations` properties are
overwritten, otherwise a new node carrying all three properties is created.
(The extra `SET e:$(entity.type)` label assignment has no property-level
effect and is not modelled.) -/
def mergeEntity (g : GraphState) (e : Entity) : GraphState :=
  if nodeExists g e.name then
    { g with nodes := g.nodes.map (fun n =>
        if n.name == e.name then
          { n with type := e.type, observations := e.observations }
        else n) }
  else
    { g with nodes := g.nodes ++ [e] }

/-- `Neo4jMemory.create_entities`: the single Cypher statement
`UNWIND $entities as entity MERGE ... SET ...` processes the input rows in
order.  (The Python method also returns its input unchanged.) -/
def create_entities (g : GraphState) (entities : List Entity) : GraphState :=
  entities.foldl mergeEntity g

/-- One row of the `create_relations` Cypher statement:
`MATCH (from:Memory),(to:Memory) WHERE from.name = relation.source AND
to.name = relation.target MERGE (from)-[r:$(relation.relationType)]->(to)`.
When either endpoint is missing the `MATCH` yields no row and nothing
happens; otherwise the edge keyed by the full triple is created if absent. -/
def mergeRelation (g : GraphState) (r : Relation) : GraphState :=
  if nodeExists g r.source ∧ nodeExists g r.target then
    if r ∈ g.edges then g
    else { g with edges := g.edges ++ [r] }
  else g

/-- One execution of the `create_relations` Cypher statement: the
`UNWIND $relations as relation` clause processes the whole input list. -/
def runRelationQuery (g : GraphState) (relations : List Relation) : GraphState :=
  relations.foldl mergeRelation g

/-- `Neo4jMemory.create_relations`: the Python `for relation in relations:`
loop executes the statement once per input relation, and each execution is
passed the entire `relations` list as its `$relations` parameter. -/
def create_relations (g : GraphState) (relations : List Relation) : GraphState :=
  relations.foldl (fun acc _ => runRelationQuery acc relations) g

/-- The `SET e.observations = coalesce(e.observations,[]) + new` clause of
`add_observations`: extend the observation list of the node(s) named `nm`.
Stored observation lists are modelled as always present, so the `coalesce`
guard is the identity. -/
def obsAppended (g : GraphState) (nm : String) (fresh : List String) : GraphState :=
  { g with nodes := g.nodes.map (fun n =>
      if n.name == nm then { n with observations := n.observations ++ fresh }
      else n) }

/-- `Neo4jMemory.add_observations`, `UNWIND $observations as obs` row by
row: `MATCH (e:Memory { name: obs.entityName })` drops the row when no node
matches; otherwise `new` collects the contents not already present
(`[o in obs.contents WHERE NOT o IN e.observations]`), the node's
observation list is extended by `new` (the `SET` clause, `obsAppended`),
and a `(name, new)` row is returned. -/
def add_observations : GraphState → List ObservationAddition →
    GraphState × List (String × List String)
  | g, [] => (g, [])
  | g, a :: rest =>
    match g.nodes.find? (fun n => n.name == a.entityName) with
    | none => add_observations g rest
    | some e =>
      let freshObs := a.contents.filter (fun o => decide (o ∉ e.observations))
      let p := add_observations (obsAppended g a.entityName freshObs) rest
      (p.1, (a.entityName, freshObs) :: p.2)

/-- One row of the `delete_entities` Cypher statement:
`MATCH (e:Memory { name: name }) DETACH DELETE e` — when a node with the
name exists it is removed together with every edge incident to it;
otherwise the row matches nothing and the state is unchanged. -/
def detachDelete (g : GraphState) (nm : String) : GraphState :=
  if nodeExists g nm then
    { nodes := g.nodes.filter (fun n => decide (n.name ≠ nm)),
      edges := g.edges.filter (fun e => decide (e.source ≠ nm ∧ e.target ≠ nm)) }
  else g

/-- `Neo4jMemory.delete_entities`: `UNWIND $entities as name` processes the
names in order. -/
def delete_entities (g : GraphState) (names : List String) : GraphState :=
  names.foldl detachDelete g

/-- One row returned for a node by the `load_graph` Cypher query:
the map `{name: entity.name, type: entity.type, observations: entity.observations}`
with each value possibly absent (`none` models a `null`/missing value, for
which the Python `dict.get` returns `None`, resp. the supplied default). -/
structure NodeRow where
  name : Option String
  type : Option String
  observations : Option (List String)
deriving DecidableEq, Repr

/-- One relation row returned by the `load_graph` Cypher query:
`{source: startNode(r).name, target: endNode(r).name, relationType: type(r)}`,
each value possibly absent (in particular the all-`none` row produced by an
`OPTIONAL MATCH` that found no edge). -/
structure RelRow where
  source : Option String
  target : Option String
  relationType : Option String
deriving DecidableEq, Repr

/-- Python truthiness of an optional string (`if node.get('name')`):
`None` and the empty string are falsy. -/
def truthy : Option String → Bool
  | none => false
  | some s => s != ""

/-- Pydantic construction `Entity(name=..., type=..., observations=node.get('observations', []))`:
fails (raises a validation error, modelled as `none`) when `name` or `type`
is missing, while a missing `observations` falls back to `[]` through the
`dict.get` default. -/
def entityOfRow (row : NodeRow) : Option Entity :=
  match row.name, row.type with
  | some nm, some t => some ⟨nm, t, row.observations.getD []⟩
  | _, _ => none

/-- Pydantic construction `Relation(source=..., target=..., relationType=...)`:
fails when any field is missing. -/
def relationOfRow (row : RelRow) : Option Relation :=
  match row.source, row.target, row.relationType with
  | some s, some t, some ty => some ⟨s, t, ty⟩
  | _, _, _ => none

/-- The entity list comprehension of `load_graph`:
`[Entity(...) for node in nodes if node.get('name')]` — rows whose `name`
is falsy are skipped, every other row is passed to the constructor, and a
constructor failure aborts the whole comprehension. -/
def buildEntities : List NodeRow → Option (List Entity)
  | [] => some []
  | row :: rest =>
    if truthy row.name then
      match entityOfRow row, buildEntities rest with
      | some e, some es => some (e :: es)
      | _, _ => none
    else buildEntities rest

/-- The relation list comprehension of `load_graph`:
`[Relation(...) for rel in rels if rel.get('source') and rel.get('target') and rel.get('relationType')]`. -/
def buildRelations : List RelRow → Option (List Relation)
  | [] => some []
  | row :: rest =>
    if truthy row.source && truthy row.target && truthy row.relationType then
      match relationOfRow row, buildRelations rest with
      | some r, some rs => some (r :: rs)
      | _, _ => none
    else buildRelations rest

/-- Row-processing part of `Neo4jMemory.load_graph`: both comprehensions
run over the collected rows and the resulting `KnowledgeGraph` is returned
(`none` models a propagated validation error). -/
def load_graph_rows (nodes : List NodeRow) (rels : List RelRow) :
    Option KnowledgeGraph :=
  match buildEntities nodes, buildRelations rels with
  | some es, some rs => some ⟨es, rs⟩
  | _, _ => none

/-- Node rows produced for the full snapshot (`filter = "*"` matches every
indexed `Memory` node): one map per stored node, all values present. -/
def nodeRowsOf (g : GraphState) : List NodeRow :=
  g.nodes.map (fun n => ⟨some n.name, some n.type, some n.observations⟩)

/-- Relation rows produced for the full snapshot: the
`OPTIONAL MATCH (entity)-[r]-(other)` clause returns the edges incident to
a matched node, each as a map with all values present. -/
def relRowsOf (g : GraphState) : List RelRow :=
  (g.edges.filter (fun e => decide (nodeExists g e.source ∨ nodeExists g e.target))).map
    (fun e => ⟨some e.source, some e.target, some e.relationType⟩)

/-- `Neo4jMemory.read_graph` = `load_graph("*")`: collect the rows of the
full snapshot and fold them into a `KnowledgeGraph`. -/
def read_graph (g : GraphState) : Option KnowledgeGraph :=
  load_graph_rows (nodeRowsOf g) (relRowsOf g)

/-- Outcome of the index-creation engine call, distinguishing the Neo4j
`ClientError` exception class (the only one the `except` clause catches)
from any other raised exception. -/
inductive QueryOutcome where
  | success
  | clientError (msg : String)
  | otherError (msg : String)
deriving DecidableEq, Repr

/-- Exact text the `except` clause searches for inside the error message. -/
def indexExistsMsg : String := "An index with this name already exists"

/-- Contiguous-sublist test on character lists. -/
def hasSub (needle : List Char) : List Char → Bool
  | [] => needle.isEmpty
  | c :: rest => needle.isPrefixOf (c :: rest) || hasSub needle rest

/-- Substring test `needle in haystack` on strings, via their character lists. -/
def strContains (haystack needle : String) : Bool :=
  hasSub needle.toList haystack.toList

/-- `Neo4jMemory.create_fulltext_index`: a `ClientError` whose message
contains `indexExistsMsg` is swallowed (logged and treated as success); any
other `ClientError` is re-raised, and a non-`ClientError` exception is not
caught at all. -/
def create_fulltext_index (res : QueryOutcome) : Except QueryOutcome Unit :=
  match res with
  | .success => .ok ()
  | .clientError msg =>
      if strContains msg indexExistsMsg then .ok ()
      else .error (.clientError msg)
  | .otherError msg => .error (.otherError msg)

/-- Shape shared by the read-style tool wrappers registered in
`MCPServer._register_tools` (`create_entities`, `create_relations`,
`add_observations`, `read_graph`, `search_nodes`, `find_nodes`,
`open_nodes`): the `try` body produces a serialized payload string, and any
exception is converted to `f"Error: {str(e)}"`. -/
def dispatchTool (body : Except String String) : String :=
  match body with
  | .ok s => s
  | .error e => "Error: " ++ e

/-- Shape shared by the write-style tool wrappers (`delete_entities`,
`delete_observations`, `delete_relations`): the `try` body returns no
payload and the wrapper answers with a fixed status string, while any
exception is converted to `f"Error: {str(e)}"`. -/
def dispatchWriteTool (body : Except String Unit) (status : String) : String :=
  match body with
  | .ok _ => status
  | .error e => "Error: " ++ e

/-- The `store_memory` tool: assigns `self._memory[key] = value` on the
per-instance dictionary (modelled as a lookup function) and reports the
stored pair. -/
def store_memory (mem : String → Option String) (key value : String) :
    (String → Option String) × String :=
  (fun k => if k = key then some value else mem k,
   "Stored: " ++ key ++ " = " ++ value)

/-- The `get_memory` tool: `self._memory.get(key, "Not found")` formatted
into the reply string. -/
def get_memory (mem : String → Option String) (key : String) : String :=
  "Retrieved: " ++ key ++ " = " ++ (mem key).getD "Not found"

/-- Modelled from the spec: helper for the "ordered deduplication" of a
list — `seen` accumulates the values already emitted, and each value is
kept only at its first occurrence. -/
def dedupSeen : List String → List String → List String
  | _, [] => []
  | seen, x :: xs =>
    if x ∈ seen then dedupSeen seen xs
    else x :: dedupSeen (seen ++ [x]) xs

/-- Modelled from the spec: the "ordered deduplication" of a list — keep
the first occurrence of every value, in order.  Used only to compare the
code's behaviour against the spec's dedup invariant. -/
def orderedDedup (l : List String) : List String := dedupSeen [] l

/-! Helper lemmas about node names and existence. -/

theorem nodeExists_iff_mem (g : GraphState) (nm : String) :
    nodeExists g nm ↔ nm ∈ nodeNames g := by
  simp [nodeExists, nodeNames]

theorem nodeExists_of_eq_names {g g' : GraphState} (h : nodeNames g' = nodeNames g)
    {m : String} : nodeExists g' m ↔ nodeExists g m := by
  rw [nodeExists_iff_mem, nodeExists_iff_mem, h]

/-! Helper lemmas for `mergeEntity` and `create_entities`. -/

theorem nodeNames_mergeEntity_of_exists (g : GraphState) (e : Entity)
    (h : nodeExists g e.name) : nodeNames (mergeEntity g e) = nodeNames g := by
  simp only [mergeEntity, if_pos h, nodeNames, List.map_map]
  apply List.map_congr_left
  intro n _
  by_cases hn : n.name = e.name <;> simp [hn]

theorem nodeNames_mergeEntity_of_not_exists (g : GraphState) (e : Entity)
    (h : ¬ nodeExists g e.name) :
    nodeNames (mergeEntity g e) = nodeNames g ++ [e.name] := by
  simp [mergeEntity, if_neg h, nodeNames]

theorem nodeExists_mergeEntity_of (g : GraphState) (e : Entity) (m : String)
    (h : nodeExists g m) : nodeExists (mergeEntity g e) m := by
  by_cases he : nodeExists g e.name
  · rwa [nodeExists_of_eq_names (nodeNames_mergeEntity_of_exists g e he)]
  · rw [nodeExists_iff_mem, nodeNames_mergeEntity_of_not_exists g e he]
    exact List.mem_append_left _ ((nodeExists_iff_mem g m).mp h)

theorem nodeExists_mergeEntity_self (g : GraphState) (e : Entity) :
    nodeExists (mergeEntity g e) e.name := by
  by_cases he : nodeExists g e.name
  · exact nodeExists_mergeEntity_of g e e.name he
  · rw [nodeExists_iff_mem, nodeNames_mergeEntity_of_not_exists g e he]
    exact List.mem_append_right _ (List.mem_singleton_self _)

theorem nodup_nodeNames_mergeEntity (g : GraphState) (e : Entity)
    (h : (nodeNames g).Nodup) : (nodeNames (mergeEntity g e)).Nodup := by
  by_cases he : nodeExists g e.name
  · rwa [nodeNames_mergeEntity_of_exists g e he]
  · rw [nodeNames_mergeEntity_of_not_exists g e he]
    refine h.append (List.nodup_singleton _) ?_
    intro x hx hx'
    rw [List.mem_singleton] at hx'
    subst hx'
    exact he ((nodeExists_iff_mem g e.name).mpr hx)

theorem nodup_nodeNames_create_entities (g : GraphState) (es : List Entity)
    (h : (nodeNames g).Nodup) : (nodeNames (create_entities g es)).Nodup := by
  induction es generalizing g with
  | nil => exact h
  | cons a rest ih =>
    simp only [create_entities, List.foldl_cons] at ih ⊢
    exact ih _ (nodup_nodeNames_mergeEntity g a h)

theorem nodeExists_create_entities_of (g : GraphState) (es : List Entity)
    (m : String) (h : nodeExists g m) : nodeExists (create_entities g es) m := by
  induction es generalizing g with
  | nil => exact h
  | cons a rest ih =>
    simp only [create_entities, List.foldl_cons] at ih ⊢
    exact ih _ (nodeExists_mergeEntity_of g a m h)

theorem nodeExists_create_entities_mem (g : GraphState) (es : List Entity)
    (e : Entity) (he : e ∈ es) : nodeExists (create_entities g es) e.name := by
  induction es generalizing g with
  | nil => cases he
  | cons a rest ih =>
    simp only [create_entities, List.foldl_cons] at ih ⊢
    rcases List.mem_cons.mp he with rfl | hrest
    · have h1 := nodeExists_mergeEntity_self g e
      have := nodeExists_create_entities_of (mergeEntity g e) rest e.name h1
      simpa [create_entities] using this
    · exact ih _ hrest

theorem count_nodeNames_eq_one (g : GraphState) (m : String)
    (hnd : (nodeNames g).Nodup) (hm : nodeExists g m) :
    (nodeNames g).count m = 1 :=
  List.count_eq_one_of_mem hnd ((nodeExists_iff_mem g m).mp hm)

theorem mergeEntity_replaces (g : GraphState) (e : Entity) (n : Entity)
    (hn : n ∈ g.nodes) (hname : n.name = e.name) :
    e ∈ (mergeEntity g e).nodes ∧
    ∀ m ∈ (mergeEntity g e).nodes, m.name = e.name → m = e := by
  have hex : nodeExists g e.name := ⟨n, hn, hname⟩
  simp only [mergeEntity, if_pos hex]
  constructor
  · refine List.mem_map.mpr ⟨n, hn, ?_⟩
    simp [hname]
  · intro m hm hmname
    rcases List.mem_map.mp hm with ⟨n0, hn0, hEq⟩
    by_cases h0 : n0.name = e.name
    · rw [← hEq]
      simp [h0]
    · rw [← hEq] at hmname ⊢
      simp [h0] at hmname

/-- Sample fixtures used by the witness theorems. -/
def entA : Entity := ⟨"A", "Person", ["o1"]⟩

def entB : Entity := ⟨"B", "Person", []⟩

def relAB : Relation := ⟨"A", "B", "KNOWS"⟩

def gAB : GraphState := ⟨[entA, entB], [relAB]⟩

/-- Fixture with an outgoing edge, an incoming edge and a self-loop on
`"A"`, used to witness the cascade-delete claim. -/
def gIncident : GraphState :=
  ⟨[entA, entB], [relAB, ⟨"B", "A", "LIKES"⟩, ⟨"A", "A", "SELF"⟩]⟩

/-- C4: `createEntities` is an upsert keyed solely by name: on a store with
unique names, calling it twice with identical input leaves exactly one
stored node per input name, and when a node with the supplied name already
exists the merged node carries exactly the supplied `type` and
`observations` (full replace), and is the only node with that name. -/
theorem create_entities_upsert (g : GraphState) (es : List Entity)
    (hnd : (nodeNames g).Nodup) :
    (∀ e ∈ es,
      (nodeNames (create_entities (create_entities g es) es)).count e.name = 1)
    ∧ (∀ e : Entity, ∀ n ∈ g.nodes, n.name = e.name →
        e ∈ (create_entities g [e]).nodes ∧
        ∀ m ∈ (create_entities g [e]).nodes, m.name = e.name → m = e) := by
  constructor
  · intro e he
    have h1 : nodeExists (create_entities g es) e.name :=
      nodeExists_create_entities_mem g es e he
    have h2 : nodeExists (create_entities (create_entities g es) es) e.name :=
      nodeExists_create_entities_of _ es _ h1
    have hnd2 := nodup_nodeNames_create_entities _ es
      (nodup_nodeNames_create_entities g es hnd)
    exact count_nodeNames_eq_one _ _ hnd2 h2
  · intro e n hn hname
    have h : create_entities g [e] = mergeEntity g e := by
      simp [create_entities]
    rw [h]
    exact mergeEntity_replaces g e n hn hname

/-- C4 witness: the upsert theorem applied to a two-node store. -/
theorem create_entities_upsert_witness :
    (nodeNames gAB).Nodup ∧
    ((∀ e ∈ [Entity.mk "A" "Robot" ["o2"]],
      (nodeNames (create_entities (create_entities gAB [Entity.mk "A" "Robot" ["o2"]])
        [Entity.mk "A" "Robot" ["o2"]])).count e.name = 1)
    ∧ (∀ e : Entity, ∀ n ∈ gAB.nodes, n.name = e.name →
        e ∈ (create_entities gAB [e]).nodes ∧
        ∀ m ∈ (create_entities gAB [e]).nodes, m.name = e.name → m = e)) :=
  ⟨by decide, create_entities_upsert gAB [Entity.mk "A" "Robot" ["o2"]] (by decide)⟩

/-! Helper lemmas for `mergeRelation`, `runRelationQuery` and
`create_relations`. -/

theorem mergeRelation_nodes (g : GraphState) (r : Relation) :
    (mergeRelation g r).nodes = g.nodes := by
  unfold mergeRelation
  split
  · split <;> rfl
  · rfl

theorem nodeExists_congr_nodes {g g' : GraphState} (h : g'.nodes = g.nodes)
    (m : String) : nodeExists g' m ↔ nodeExists g m := by
  unfold nodeExists
  rw [h]

theorem runRelationQuery_nodes (g : GraphState) (rs : List Relation) :
    (runRelationQuery g rs).nodes = g.nodes := by
  induction rs generalizing g with
  | nil => rfl
  | cons a rest ih =>
    simp only [runRelationQuery, List.foldl_cons] at ih ⊢
    rw [ih, mergeRelation_nodes]

theorem foldl_relQuery_nodes (rs l : List Relation) (g : GraphState) :
    (l.foldl (fun acc _ => runRelationQuery acc rs) g).nodes = g.nodes := by
  induction l generalizing g with
  | nil => rfl
  | cons a rest ih =>
    simp only [List.foldl_cons]
    rw [ih, runRelationQuery_nodes]

theorem create_relations_nodes (g : GraphState) (rs : List Relation) :
    (create_relations g rs).nodes = g.nodes :=
  foldl_relQuery_nodes rs rs g

theorem mergeRelation_edges_mono (g : GraphState) (r x : Relation)
    (h : x ∈ g.edges) : x ∈ (mergeRelation g r).edges := by
  unfold mergeRelation
  split
  · split
    · exact h
    · exact List.mem_append_left _ h
  · exact h

theorem mergeRelation_self_mem (g : GraphState) (r : Relation)
    (hs : nodeExists g r.source) (ht : nodeExists g r.target) :
    r ∈ (mergeRelation g r).edges := by
  unfold mergeRelation
  rw [if_pos (⟨hs, ht⟩ : nodeExists g r.source ∧ nodeExists g r.target)]
  by_cases hm : r ∈ g.edges
  · rwa [if_pos hm]
  · rw [if_neg hm]
    exact List.mem_append_right _ (List.mem_singleton_self _)

theorem mergeRelation_eq_of_mem (g : GraphState) (r : Relation)
    (h : r ∈ g.edges) : mergeRelation g r = g := by
  unfold mergeRelation
  by_cases hc : nodeExists g r.source ∧ nodeExists g r.target
  · rw [if_pos hc, if_pos h]
  · rw [if_neg hc]

theorem runRelationQuery_edges_mono (g : GraphState) (rs : List Relation)
    (x : Relation) (h : x ∈ g.edges) : x ∈ (runRelationQuery g rs).edges := by
  induction rs generalizing g with
  | nil => exact h
  | cons a rest ih =>
    simp only [runRelationQuery, List.foldl_cons] at ih ⊢
    exact ih _ (mergeRelation_edges_mono g a x h)

theorem runRelationQuery_mem (g : GraphState) (rs : List Relation) (r : Relation)
    (hr : r ∈ rs) (hs : nodeExists g r.source) (ht : nodeExists g r.target) :
    r ∈ (runRelationQuery g rs).edges := by
  induction rs generalizing g with
  | nil => cases hr
  | cons a rest ih =>
    simp only [runRelationQuery, List.foldl_cons] at ih ⊢
    rcases List.mem_cons.mp hr with rfl | hmem
    · have h1 : r ∈ (mergeRelation g r).edges := mergeRelation_self_mem g r hs ht
      have h2 := runRelationQuery_edges_mono (mergeRelation g r) rest r h1
      simpa [runRelationQuery] using h2
    · exact ih _ hmem
        ((nodeExists_congr_nodes (mergeRelation_nodes g a) _).mpr hs)
        ((nodeExists_congr_nodes (mergeRelation_nodes g a) _).mpr ht)

theorem runRelationQuery_fixed (g : GraphState) (rs : List Relation)
    (h : ∀ r ∈ rs, r ∈ g.edges) : runRelationQuery g rs = g := by
  induction rs generalizing g with
  | nil => rfl
  | cons a rest ih =>
    simp only [runRelationQuery, List.foldl_cons] at ih ⊢
    rw [mergeRelation_eq_of_mem g a (h a (List.mem_cons_self a rest))]
    exact ih g (fun r hr => h r (List.mem_cons_of_mem _ hr))

theorem runRelationQuery_idem (g : GraphState) (rs : List Relation)
    (hend : ∀ r ∈ rs, nodeExists g r.source ∧ nodeExists g r.target) :
    runRelationQuery (runRelationQuery g rs) rs = runRelationQuery g rs := by
  apply runRelationQuery_fixed
  intro r hr
  exact runRelationQuery_mem g rs r hr (hend r hr).1 (hend r hr).2

theorem foldl_relQuery_absorb (rs l : List Relation) (g : GraphState)
    (hend : ∀ r ∈ rs, nodeExists g r.source ∧ nodeExists g r.target) :
    l.foldl (fun acc _ => runRelationQuery acc rs) (runRelationQuery g rs)
      = runRelationQuery g rs := by
  induction l with
  | nil => rfl
  | cons b rest ih =>
    simp only [List.foldl_cons]
    rw [runRelationQuery_idem g rs hend]
    exact ih

theorem mergeRelation_edges_nodup (g : GraphState) (r : Relation)
    (h : g.edges.Nodup) : (mergeRelation g r).edges.Nodup := by
  unfold mergeRelation
  split
  · by_cases hm : r ∈ g.edges
    · rwa [if_pos hm]
    · rw [if_neg hm]
      refine h.append (List.nodup_singleton _) ?_
      intro x hx hx'
      rw [List.mem_singleton] at hx'
      subst hx'
      exact hm hx
  · exact h

theorem runRelationQuery_edges_nodup (g : GraphState) (rs : List Relation)
    (h : g.edges.Nodup) : (runRelationQuery g rs).edges.Nodup := by
  induction rs generalizing g with
  | nil => exact h
  | cons a rest ih =>
    simp only [runRelationQuery, List.foldl_cons] at ih ⊢
    exact ih _ (mergeRelation_edges_nodup g a h)

theorem foldl_relQuery_edges_nodup (rs l : List Relation) (g : GraphState)
    (h : g.edges.Nodup) :
    (l.foldl (fun acc _ => runRelationQuery acc rs) g).edges.Nodup := by
  induction l generalizing g with
  | nil => exact h
  | cons a rest ih =>
    simp only [List.foldl_cons]
    exact ih _ (runRelationQuery_edges_nodup g rs h)

/-- C9: although `create_relations` runs its Cypher statement once per input
relation and each execution processes the whole list, the final state (all
endpoints existing) equals one execution of the batch, and no duplicate
edges are introduced. -/
theorem create_relations_batch_once (g : GraphState) (rs : List Relation)
    (hend : ∀ r ∈ rs, nodeExists g r.source ∧ nodeExists g r.target) :
    create_relations g rs = runRelationQuery g rs ∧
    (g.edges.Nodup → (create_relations g rs).edges.Nodup) := by
  constructor
  · cases rs with
    | nil => rfl
    | cons a rest =>
      show (a :: rest).foldl (fun acc _ => runRelationQuery acc (a :: rest)) g
        = runRelationQuery g (a :: rest)
      rw [List.foldl_cons]
      exact foldl_relQuery_absorb (a :: rest) rest g hend
  · intro hnd
    exact foldl_relQuery_edges_nodup rs rs g hnd

/-- C9 witness: running the doubled batch on the two-node store equals one
batch execution and keeps the edge list duplicate-free. -/
theorem create_relations_batch_once_witness :
    (∀ r ∈ [relAB, Relation.mk "B" "A" "LIKES"],
      nodeExists gAB r.source ∧ nodeExists gAB r.target) ∧
    (create_relations gAB [relAB, Relation.mk "B" "A" "LIKES"]
       = runRelationQuery gAB [relAB, Relation.mk "B" "A" "LIKES"] ∧
     (gAB.edges.Nodup →
       (create_relations gAB [relAB, Relation.mk "B" "A" "LIKES"]).edges.Nodup)) :=
  ⟨by decide, create_relations_batch_once gAB [relAB, Relation.mk "B" "A" "LIKES"]
    (by decide)⟩

theorem mergeRelation_not_mem (g : GraphState) (r r' : Relation)
    (hmiss : ¬ nodeExists g r.source ∨ ¬ nodeExists g r.target)
    (hnot : r ∉ g.edges) : r ∉ (mergeRelation g r').edges := by
  unfold mergeRelation
  by_cases hc : nodeExists g r'.source ∧ nodeExists g r'.target
  · rw [if_pos hc]
    by_cases hm : r' ∈ g.edges
    · rwa [if_pos hm]
    · rw [if_neg hm]
      intro hx
      rcases List.mem_append.mp hx with h1 | h2
      · exact hnot h1
      · rw [List.mem_singleton] at h2
        subst h2
        rcases hmiss with h | h
        · exact h hc.1
        · exact h hc.2
  · rwa [if_neg hc]

theorem runRelationQuery_not_mem (g : GraphState) (rs : List Relation)
    (r : Relation) (hmiss : ¬ nodeExists g r.source ∨ ¬ nodeExists g r.target)
    (hnot : r ∉ g.edges) : r ∉ (runRelationQuery g rs).edges := by
  induction rs generalizing g with
  | nil => exact hnot
  | cons a rest ih =>
    simp only [runRelationQuery, List.foldl_cons] at ih ⊢
    refine ih _ ?_ (mergeRelation_not_mem g r a hmiss hnot)
    rcases hmiss with h | h
    · exact Or.inl (fun hx =>
        h ((nodeExists_congr_nodes (mergeRelation_nodes g a) _).mp hx))
    · exact Or.inr (fun hx =>
        h ((nodeExists_congr_nodes (mergeRelation_nodes g a) _).mp hx))

theorem foldl_relQuery_not_mem (rs l : List Relation) (g : GraphState)
    (r : Relation) (hmiss : ¬ nodeExists g r.source ∨ ¬ nodeExists g r.target)
    (hnot : r ∉ g.edges) :
    r ∉ (l.foldl (fun acc _ => runRelationQuery acc rs) g).edges := by
  induction l generalizing g with
  | nil => exact hnot
  | cons a rest ih =>
    simp only [List.foldl_cons]
    refine ih _ ?_ (runRelationQuery_not_mem g rs r hmiss hnot)
    rcases hmiss with h | h
    · exact Or.inl (fun hx =>
        h ((nodeExists_congr_nodes (runRelationQuery_nodes g rs) _).mp hx))
    · exact Or.inr (fun hx =>
        h ((nodeExists_congr_nodes (runRelationQuery_nodes g rs) _).mp hx))

theorem create_relations_not_mem (g : GraphState) (rs : List Relation)
    (r : Relation) (hmiss : ¬ nodeExists g r.source ∨ ¬ nodeExists g r.target)
    (hnot : r ∉ g.edges) : r ∉ (create_relations g rs).edges :=
  foldl_relQuery_not_mem rs rs g r hmiss hnot

theorem buildRelations_map_subset (l : List Relation) (rs : List Relation)
    (h : buildRelations (l.map
      (fun e => RelRow.mk (some e.source) (some e.target) (some e.relationType)))
      = some rs) :
    ∀ x ∈ rs, x ∈ l := by
  induction l generalizing rs with
  | nil =>
    simp only [List.map_nil, buildRelations] at h
    cases h
    intro x hx
    cases hx
  | cons e l' ih =>
    simp only [List.map_cons, buildRelations] at h
    by_cases hc : (truthy (some e.source) && truthy (some e.target)
        && truthy (some e.relationType)) = true
    · rw [if_pos hc] at h
      cases hrest : buildRelations (l'.map
          (fun e => RelRow.mk (some e.source) (some e.target) (some e.relationType))) with
      | none =>
        rw [hrest] at h
        simp [relationOfRow] at h
      | some rs' =>
        rw [hrest] at h
        simp only [relationOfRow] at h
        cases h
        intro x hx
        rcases List.mem_cons.mp hx with rfl | hx'
        · exact List.mem_cons_self _ _
        · exact List.mem_cons_of_mem _ (ih rs' hrest x hx')
    · rw [if_neg hc] at h
      intro x hx
      exact List.mem_cons_of_mem _ (ih rs h x hx)

theorem read_graph_relations_sub (g : GraphState) (kg : KnowledgeGraph)
    (h : read_graph g = some kg) : ∀ x ∈ kg.relations, x ∈ g.edges := by
  unfold read_graph load_graph_rows at h
  cases hbe : buildEntities (nodeRowsOf g) with
  | none =>
    rw [hbe] at h
    cases h
  | some es =>
    cases hbr : buildRelations (relRowsOf g) with
    | none =>
      rw [hbe, hbr] at h
      cases h
    | some rs =>
      rw [hbe, hbr] at h
      cases h
      intro x hx
      have hsub := buildRelations_map_subset
        (g.edges.filter (fun e =>
          decide (nodeExists g e.source ∨ nodeExists g e.target))) rs hbr x hx
      exact List.mem_of_mem_filter hsub

/-- C2 (silent miss on relation create): for a relation in the input whose
source or target names no stored node, `create_relations` leaves the node
list unchanged (no stub entity), never stores that edge, and the relation
does not appear in a subsequent `read_graph` result.  The embedding of
`create_relations` is a total function, so the call completes without
raising. -/
theorem create_relations_silent_miss (g : GraphState) (rs : List Relation)
    (r : Relation) (hr : r ∈ rs)
    (hmiss : ¬ nodeExists g r.source ∨ ¬ nodeExists g r.target)
    (hnot : r ∉ g.edges) :
    (create_relations g rs).nodes = g.nodes ∧
    r ∉ (create_relations g rs).edges ∧
    ∀ kg, read_graph (create_relations g rs) = some kg → r ∉ kg.relations := by
  have _ := hr
  refine ⟨create_relations_nodes g rs, create_relations_not_mem g rs r hmiss hnot, ?_⟩
  intro kg hkg hx
  exact create_relations_not_mem g rs r hmiss hnot
    (read_graph_relations_sub _ kg hkg r hx)

/-- C2 witness: creating a relation towards the absent node `"C"` leaves the
two-node store's nodes unchanged and never stores or reports the edge. -/
theorem create_relations_silent_miss_witness :
    ((Relation.mk "A" "C" "R") ∈ [Relation.mk "A" "C" "R"] ∧
     (¬ nodeExists gAB (Relation.mk "A" "C" "R").source ∨
      ¬ nodeExists gAB (Relation.mk "A" "C" "R").target) ∧
     (Relation.mk "A" "C" "R") ∉ gAB.edges) ∧
    ((create_relations gAB [Relation.mk "A" "C" "R"]).nodes = gAB.nodes ∧
     (Relation.mk "A" "C" "R") ∉ (create_relations gAB [Relation.mk "A" "C" "R"]).edges ∧
     ∀ kg, read_graph (create_relations gAB [Relation.mk "A" "C" "R"]) = some kg →
       (Relation.mk "A" "C" "R") ∉ kg.relations) :=
  ⟨⟨by decide, by decide, by decide⟩,
   create_relations_silent_miss gAB [Relation.mk "A" "C" "R"] (Relation.mk "A" "C" "R")
     (by decide) (by decide) (by decide)⟩

/-! Helper lemmas for `detachDelete` and `delete_entities`. -/

theorem delete_entities_singleton (g : GraphState) (nm : String) :
    delete_entities g [nm] = detachDelete g nm := rfl

/-- C3 (cascade delete): deleting the name of stored node `a` removes every
node with that name together with every incident edge, keeps all other
nodes (in particular `b`) and all edges not touching `a`, and deleting a
name with no matching node is a no-op. -/
theorem delete_entities_cascade (g : GraphState) (a b : Entity) (rel : Relation)
    (ha : a ∈ g.nodes) (hb : b ∈ g.nodes) (hne : a.name ≠ b.name)
    (hrel : rel ∈ g.edges) (hsrc : rel.source = a.name) (htgt : rel.target = b.name) :
    (∀ n ∈ (delete_entities g [a.name]).nodes, n.name ≠ a.name) ∧
    b ∈ (delete_entities g [a.name]).nodes ∧
    rel ∉ (delete_entities g [a.name]).edges ∧
    (∀ x ∈ (delete_entities g [a.name]).edges,
      x.source ≠ a.name ∧ x.target ≠ a.name) ∧
    (∀ x ∈ g.edges, x.source ≠ a.name → x.target ≠ a.name →
      x ∈ (delete_entities g [a.name]).edges) ∧
    (∀ n ∈ g.nodes, n.name ≠ a.name → n ∈ (delete_entities g [a.name]).nodes) ∧
    (∀ nm, ¬ nodeExists g nm → delete_entities g [nm] = g) := by
  have hex : nodeExists g a.name := ⟨a, ha, rfl⟩
  rw [delete_entities_singleton]
  unfold detachDelete
  rw [if_pos hex]
  refine ⟨?_, ?_, ?_, ?_, ?_, ?_, ?_⟩
  · intro n hn
    have := List.of_mem_filter hn
    simpa using this
  · simp only [List.mem_filter]
    refine ⟨hb, ?_⟩
    simpa using fun h => hne h.symm
  · intro hmem
    have := List.of_mem_filter hmem
    simp at this
    exact this.1 hsrc
  · intro x hx
    have := List.of_mem_filter hx
    simpa using this
  · intro x hx h1 h2
    simp only [List.mem_filter]
    exact ⟨hx, by simpa using ⟨h1, h2⟩⟩
  · intro n hn h1
    simp only [List.mem_filter]
    exact ⟨hn, by simpa using h1⟩
  · intro nm hnm
    rw [delete_entities_singleton]
    unfold detachDelete
    rw [if_neg hnm]

/-- C3 witness: deleting `"A"` from a store holding an outgoing edge, an
incoming edge and a self-loop on `"A"` removes `entA` and every incident
edge (so none of the three survives) while `entB` is kept. -/
theorem delete_entities_cascade_witness :
    (entA ∈ gIncident.nodes ∧ entB ∈ gIncident.nodes ∧ entA.name ≠ entB.name ∧
     relAB ∈ gIncident.edges ∧ relAB.source = entA.name ∧ relAB.target = entB.name) ∧
    ((∀ n ∈ (delete_entities gIncident [entA.name]).nodes, n.name ≠ entA.name) ∧
     entB ∈ (delete_entities gIncident [entA.name]).nodes ∧
     relAB ∉ (delete_entities gIncident [entA.name]).edges ∧
     (∀ x ∈ (delete_entities gIncident [entA.name]).edges,
       x.source ≠ entA.name ∧ x.target ≠ entA.name) ∧
     (∀ x ∈ gIncident.edges, x.source ≠ entA.name → x.target ≠ entA.name →
       x ∈ (delete_entities gIncident [entA.name]).edges) ∧
     (∀ n ∈ gIncident.nodes, n.name ≠ entA.name →
       n ∈ (delete_entities gIncident [entA.name]).nodes) ∧
     (∀ nm, ¬ nodeExists gIncident nm → delete_entities gIncident [nm] = gIncident)) :=
  ⟨⟨by decide, by decide, by decide, by decide, by decide, by decide⟩,
   delete_entities_cascade gIncident entA entB relAB (by decide) (by decide)
     (by decide) (by decide) (by decide) (by decide)⟩

/-- C6: index creation succeeds silently when the engine raises a client
error whose message reports that the index already exists, re-raises every
other client error unmodified, propagates non-client exceptions unmodified,
and succeeds on a successful engine call. -/
theorem create_fulltext_index_spec :
    (∀ msg, strContains msg indexExistsMsg = true →
      create_fulltext_index (.clientError msg) = .ok ()) ∧
    (∀ msg, strContains msg indexExistsMsg = false →
      create_fulltext_index (.clientError msg) = .error (.clientError msg)) ∧
    (∀ msg, create_fulltext_index (.otherError msg) = .error (.otherError msg)) ∧
    create_fulltext_index .success = .ok () := by
  refine ⟨?_, ?_, ?_, rfl⟩
  · intro msg h
    simp [create_fulltext_index, h]
  · intro msg h
    simp [create_fulltext_index, h]
  · intro msg
    rfl

/-- C6 witness: the exact already-exists message is swallowed and an
unrelated client error is re-raised. -/
theorem create_fulltext_index_spec_witness :
    strContains "Neo.ClientError: An index with this name already exists." indexExistsMsg = true ∧
    create_fulltext_index
      (.clientError "Neo.ClientError: An index with this name already exists.") = .ok () ∧
    strContains "syntax error in statement" indexExistsMsg = false ∧
    create_fulltext_index (.clientError "syntax error in statement")
      = .error (.clientError "syntax error in statement") :=
  ⟨by decide,
   create_fulltext_index_spec.1 _ (by decide),
   by decide,
   create_fulltext_index_spec.2.1 _ (by decide)⟩

/-- C7: every registered graph tool wrapper converts an exception raised by
the body into the string `"Error: " ++ message` (so the reply starts with
the sentinel) and returns the serialized payload, resp. its fixed status
string, on success. -/
theorem dispatch_error_sentinel :
    ∀ (e s status : String),
      dispatchTool (Except.error e) = "Error: " ++ e ∧
      (∃ rest, dispatchTool (Except.error e) = "Error: " ++ rest) ∧
      dispatchTool (Except.ok s) = s ∧
      dispatchWriteTool (Except.error e) status = "Error: " ++ e ∧
      (∃ rest, dispatchWriteTool (Except.error e) status = "Error: " ++ rest) ∧
      dispatchWriteTool (Except.ok ()) status = status := by
  intro e s status
  exact ⟨rfl, ⟨e, rfl⟩, rfl, rfl, ⟨e, rfl⟩, rfl⟩

/-- C10: after `store_memory k v`, `get_memory k` reports the stored value
(whatever was stored before), and `get_memory` on a never-stored key
reports `"Not found"` instead of failing. -/
theorem memory_store_get (mem : String → Option String) (k v : String) :
    get_memory (store_memory mem k v).1 k = "Retrieved: " ++ k ++ " = " ++ v ∧
    (mem k = none →
      get_memory mem k = "Retrieved: " ++ k ++ " = " ++ "Not found") := by
  constructor
  · simp [get_memory, store_memory]
  · intro h
    simp [get_memory, h]

/-- C10 witness: store/get round trip and miss on the empty memory. -/
theorem memory_store_get_witness :
    ((fun _ => (none : Option String)) "k" = none) ∧
    get_memory (store_memory (fun _ => none) "k" "v").1 "k"
      = "Retrieved: " ++ "k" ++ " = " ++ "v" ∧
    get_memory (fun _ => none) "k" = "Retrieved: " ++ "k" ++ " = " ++ "Not found" :=
  ⟨rfl, (memory_store_get (fun _ => none) "k" "v").1,
   (memory_store_get (fun _ => none) "k" "v").2 rfl⟩

/-! Helper lemmas for the `load_graph` row filtering. -/

theorem truthy_some {o : Option String} (h : truthy o = true) :
    ∃ s, o = some s ∧ s ≠ "" := by
  cases o with
  | none => simp [truthy] at h
  | some s =>
    refine ⟨s, rfl, ?_⟩
    simpa [truthy] using h

theorem buildEntities_names_ne (nodes : List NodeRow) (es : List Entity)
    (h : buildEntities nodes = some es) : ∀ e ∈ es, e.name ≠ "" := by
  induction nodes generalizing es with
  | nil =>
    simp only [buildEntities] at h
    cases h
    intro e he
    cases he
  | cons row rest ih =>
    simp only [buildEntities] at h
    by_cases hc : truthy row.name = true
    · rw [if_pos hc] at h
      cases hrowE : entityOfRow row with
      | none =>
        cases hrest : buildEntities rest with
        | none => rw [hrowE, hrest] at h; cases h
        | some es' => rw [hrowE, hrest] at h; cases h
      | some e0 =>
        cases hrest : buildEntities rest with
        | none => rw [hrowE, hrest] at h; cases h
        | some es' =>
          rw [hrowE, hrest] at h
          cases h
          intro e he
          rcases List.mem_cons.mp he with rfl | he'
          · rcases truthy_some hc with ⟨nm, hn, hne⟩
            unfold entityOfRow at hrowE
            rw [hn] at hrowE
            cases ht : row.type with
            | none => rw [ht] at hrowE; cases hrowE
            | some t =>
              rw [ht] at hrowE
              cases hrowE
              simpa using hne
          · exact ih es' hrest e he'
    · rw [if_neg hc] at h
      exact ih es h

theorem buildRelations_total (rels : List RelRow) :
    ∃ rs, buildRelations rels = some rs := by
  induction rels with
  | nil => exact ⟨[], rfl⟩
  | cons row rest ih =>
    rcases ih with ⟨rs', hrs'⟩
    by_cases hc : (truthy row.source && truthy row.target
        && truthy row.relationType) = true
    · have hs := truthy_some (by
        have := hc
        simp only [Bool.and_eq_true] at this
        exact this.1.1)
      have ht := truthy_some (by
        have := hc
        simp only [Bool.and_eq_true] at this
        exact this.1.2)
      have hty := truthy_some (by
        have := hc
        simp only [Bool.and_eq_true] at this
        exact this.2)
      rcases hs with ⟨s, hs, -⟩
      rcases ht with ⟨t, ht, -⟩
      rcases hty with ⟨ty, hty, -⟩
      have hrow : relationOfRow row = some ⟨s, t, ty⟩ := by
        unfold relationOfRow
        rw [hs, ht, hty]
      refine ⟨⟨s, t, ty⟩ :: rs', ?_⟩
      simp only [buildRelations, if_pos hc, hrow, hrs']
    · exact ⟨rs', by simp only [buildRelations, if_neg hc, hrs']⟩

theorem buildRelations_fields_ne (rels : List RelRow) (rs : List Relation)
    (h : buildRelations rels = some rs) :
    ∀ r ∈ rs, r.source ≠ "" ∧ r.target ≠ "" ∧ r.relationType ≠ "" := by
  induction rels generalizing rs with
  | nil =>
    simp only [buildRelations] at h
    cases h
    intro r hr
    cases hr
  | cons row rest ih =>
    simp only [buildRelations] at h
    by_cases hc : (truthy row.source && truthy row.target
        && truthy row.relationType) = true
    · rw [if_pos hc] at h
      simp only [Bool.and_eq_true] at hc
      rcases truthy_some hc.1.1 with ⟨s, hs, hsne⟩
      rcases truthy_some hc.1.2 with ⟨t, ht, htne⟩
      rcases truthy_some hc.2 with ⟨ty, hty, htyne⟩
      cases hrest : buildRelations rest with
      | none =>
        rw [hrest] at h
        unfold relationOfRow at h
        rw [hs, ht, hty] at h
        cases h
      | some rs' =>
        rw [hrest] at h
        unfold relationOfRow at h
        rw [hs, ht, hty] at h
        cases h
        intro r hr
        rcases List.mem_cons.mp hr with rfl | hr'
        · exact ⟨hsne, htne, htyne⟩
        · exact ih rs' hrest r hr'
    · rw [if_neg hc] at h
      exact ih rs h

/-- C8 (amended): every entity in a successfully built `KnowledgeGraph` has
a present, non-empty name and every relation has present, non-empty source,
target and relation type; moreover the relation filter checks all three
fields, so `Relation` construction never fails.  (The entity filter checks
only the name, so `Entity` construction can still receive a missing `type`;
see the counterexample.) -/
theorem load_graph_row_filtering :
    (∀ (nodes : List NodeRow) (rels : List RelRow) (kg : KnowledgeGraph),
      load_graph_rows nodes rels = some kg →
        (∀ e ∈ kg.entities, e.name ≠ "") ∧
        (∀ r ∈ kg.relations, r.source ≠ "" ∧ r.target ≠ "" ∧ r.relationType ≠ ""))
    ∧ (∀ rels : List RelRow, ∃ rs, buildRelations rels = some rs) := by
  constructor
  · intro nodes rels kg h
    unfold load_graph_rows at h
    cases hbe : buildEntities nodes with
    | none => rw [hbe] at h; cases h
    | some es =>
      cases hbr : buildRelations rels with
      | none => rw [hbe, hbr] at h; cases h
      | some rs =>
        rw [hbe, hbr] at h
        cases h
        exact ⟨buildEntities_names_ne nodes es hbe,
               buildRelations_fields_ne rels rs hbr⟩
  · exact buildRelations_total

/-- C8 witness: a well-formed node row and relation row pass the filters
and yield the expected graph; the all-`none` relation row produced by an
empty `OPTIONAL MATCH` is filtered out. -/
theorem load_graph_row_filtering_witness :
    load_graph_rows [NodeRow.mk (some "x") (some "T") (some ["o"])]
        [RelRow.mk (some "a") (some "b") (some "R"), RelRow.mk none none none]
      = some ⟨[Entity.mk "x" "T" ["o"]], [Relation.mk "a" "b" "R"]⟩ ∧
    ((∀ e ∈ [Entity.mk "x" "T" ["o"]], e.name ≠ "") ∧
     (∀ r ∈ [Relation.mk "a" "b" "R"],
       r.source ≠ "" ∧ r.target ≠ "" ∧ r.relationType ≠ "")) :=
  ⟨by decide,
   load_graph_row_filtering.1 [NodeRow.mk (some "x") (some "T") (some ["o"])]
     [RelRow.mk (some "a") (some "b") (some "R"), RelRow.mk none none none]
     ⟨[Entity.mk "x" "T" ["o"]], [Relation.mk "a" "b" "R"]⟩ (by decide)⟩

/-- C8 counterexample: a node row with a present name but missing `type`
passes the name-only filter, so the `Entity` constructor receives a missing
field (a pydantic validation error, modelled as `none`), refuting the
claim that construction never receives a missing field. -/
theorem load_graph_missing_type_cex :
    truthy (NodeRow.mk (some "x") none (some [])).name = true ∧
    entityOfRow (NodeRow.mk (some "x") none (some [])) = none ∧
    load_graph_rows [NodeRow.mk (some "x") none (some [])] [] = none := by
  exact ⟨rfl, rfl, rfl⟩

/-! Helper lemmas for `add_observations`. -/

theorem nodeNames_obsUpdate (g : GraphState) (nm : String) (fresh : List String) :
    nodeNames (obsAppended g nm fresh) = nodeNames g := by
  simp only [obsAppended, nodeNames, List.map_map]
  apply List.map_congr_left
  intro n _
  by_cases h : n.name = nm <;> simp [h]

theorem nodeExists_of_find?_eq_some {g : GraphState} {nm : String} {e : Entity}
    (h : g.nodes.find? (fun n => n.name == nm) = some e) : nodeExists g nm := by
  refine ⟨e, List.mem_of_find?_eq_some h, ?_⟩
  have := List.find?_some h
  simpa using this

theorem not_nodeExists_of_find?_eq_none {g : GraphState} {nm : String}
    (h : g.nodes.find? (fun n => n.name == nm) = none) : ¬ nodeExists g nm := by
  rw [List.find?_eq_none] at h
  rintro ⟨n, hn, rfl⟩
  exact h n hn (by simp)

theorem add_observations_names (g : GraphState) (adds : List ObservationAddition) :
    ((add_observations g adds).2).map Prod.fst
      = (adds.filter (fun a => decide (nodeExists g a.entityName))).map
          (fun a => a.entityName) := by
  induction adds generalizing g with
  | nil => rfl
  | cons a rest ih =>
    cases hfind : g.nodes.find? (fun n => n.name == a.entityName) with
    | none =>
      have hne : ¬ nodeExists g a.entityName :=
        not_nodeExists_of_find?_eq_none hfind
      simp only [add_observations, hfind, List.filter_cons]
      rw [if_neg (by simpa using hne)]
      exact ih g
    | some e =>
      have hex : nodeExists g a.entityName := nodeExists_of_find?_eq_some hfind
      simp only [add_observations, hfind, List.filter_cons]
      rw [if_pos (by simpa using hex)]
      simp only [List.map_cons]
      rw [ih]
      congr 2
      apply List.filter_congr
      intro x _
      exact decide_eq_decide.mpr
        (nodeExists_of_eq_names (nodeNames_obsUpdate g a.entityName _))

theorem add_observations_all_dup (g : GraphState) (a : ObservationAddition)
    (e : Entity) (hfind : g.nodes.find? (fun n => n.name == a.entityName) = some e)
    (hdup : ∀ c ∈ a.contents, c ∈ e.observations) :
    (add_observations g [a]).2 = [(a.entityName, [])] := by
  have hfresh : a.contents.filter (fun o => decide (o ∉ e.observations)) = [] := by
    rw [List.filter_eq_nil_iff]
    intro c hc
    simpa using hdup c hc
  simp only [add_observations, hfind, hfresh]

/-- C5 (amended): `add_observations` returns one `(entityName, added)` entry
per input addition whose `entityName` matches a stored node, in input order
— additions naming a non-existent entity contribute no entry at all — and
the entry's list is empty when every supplied string was already present. -/
theorem add_observations_report (g : GraphState) (adds : List ObservationAddition) :
    (((add_observations g adds).2).map Prod.fst
      = (adds.filter (fun a => decide (nodeExists g a.entityName))).map
          (fun a => a.entityName))
    ∧ (∀ (a : ObservationAddition) (e : Entity),
        g.nodes.find? (fun n => n.name == a.entityName) = some e →
        (∀ c ∈ a.contents, c ∈ e.observations) →
        (add_observations g [a]).2 = [(a.entityName, [])]) :=
  ⟨add_observations_names g adds, fun a e h1 h2 => add_observations_all_dup g a e h1 h2⟩

/-- C5 witness: on the two-node store, an addition for the stored `"A"` and
one for the absent `"Z"` yield exactly one report entry, and an all-duplicate
addition reports an empty list. -/
theorem add_observations_report_witness :
    (((add_observations gAB
        [ObservationAddition.mk "A" ["o1"], ObservationAddition.mk "Z" ["q"]]).2).map Prod.fst
      = ([ObservationAddition.mk "A" ["o1"], ObservationAddition.mk "Z" ["q"]].filter
          (fun a => decide (nodeExists gAB a.entityName))).map (fun a => a.entityName))
    ∧ gAB.nodes.find? (fun n => n.name == "A") = some entA
    ∧ (∀ c ∈ ["o1"], c ∈ entA.observations)
    ∧ (add_observations gAB [ObservationAddition.mk "A" ["o1"]]).2 = [("A", [])] :=
  ⟨(add_observations_report gAB
      [ObservationAddition.mk "A" ["o1"], ObservationAddition.mk "Z" ["q"]]).1,
   by decide, by decide,
   (add_observations_report gAB [ObservationAddition.mk "A" ["o1"]]).2
     (ObservationAddition.mk "A" ["o1"]) entA (by decide) (by decide)⟩

/-- C5 counterexample: an addition whose `entityName` matches no stored node
produces no result entry at all — the returned sequence is empty rather
than containing an entry with an empty `addedObservations` list. -/
theorem add_observations_missing_entity_cex :
    (add_observations ⟨[⟨"A", "T", []⟩], []⟩ [⟨"B", ["x"]⟩]).2 = [] ∧
    ¬ ∃ p ∈ (add_observations ⟨[⟨"A", "T", []⟩], []⟩ [⟨"B", ["x"]⟩]).2,
        p.1 = "B" := by
  constructor
  · rfl
  · rintro ⟨p, hp, -⟩
    simp only [add_observations] at hp
    cases hp

/-! Helper lemmas for the observation-dedup claim. -/

theorem dedupSeen_append_fresh (S1 : List String) :
    ∀ (seen : List String) (S2 : List String), S1.Nodup →
    (∀ x ∈ S1, x ∉ seen) →
    dedupSeen seen (S1 ++ S2) = S1 ++ dedupSeen (seen ++ S1) S2 := by
  induction S1 with
  | nil =>
    intro seen S2 _ _
    simp [dedupSeen]
  | cons a S1' ih =>
    intro seen S2 hnd hfresh
    have ha : a ∉ seen := hfresh a (List.mem_cons_self a S1')
    rw [List.cons_append, dedupSeen, if_neg ha]
    rw [ih (seen ++ [a]) S2 (List.nodup_cons.mp hnd).2 ?fresh]
    · rw [List.cons_append, List.append_assoc]
      simp
    case fresh =>
      intro x hx
      simp only [List.mem_append, List.mem_singleton]
      rintro (hxs | rfl)
      · exact hfresh x (List.mem_cons_of_mem _ hx) hxs
      · exact (List.nodup_cons.mp hnd).1 hx

theorem dedupSeen_of_nodup (S2 : List String) :
    ∀ seen : List String, S2.Nodup →
    dedupSeen seen S2 = S2.filter (fun o => decide (o ∉ seen)) := by
  induction S2 with
  | nil =>
    intro seen _
    rfl
  | cons b S2' ih =>
    intro seen hnd
    by_cases hb : b ∈ seen
    · rw [dedupSeen, if_pos hb, List.filter_cons]
      rw [if_neg (by simpa using hb)]
      exact ih seen (List.nodup_cons.mp hnd).2
    · rw [dedupSeen, if_neg hb, List.filter_cons]
      rw [if_pos (by simpa using hb)]
      rw [ih (seen ++ [b]) (List.nodup_cons.mp hnd).2]
      congr 1
      apply List.filter_congr
      intro x hx
      have hxb : x ≠ b := fun he => (List.nodup_cons.mp hnd).1 (he ▸ hx)
      simp [List.mem_append, hxb]

theorem orderedDedup_append (S1 S2 : List String) (h1 : S1.Nodup) (h2 : S2.Nodup) :
    orderedDedup (S1 ++ S2) = S1 ++ S2.filter (fun o => decide (o ∉ S1)) := by
  unfold orderedDedup
  rw [dedupSeen_append_fresh S1 [] S2 h1 (by simp)]
  rw [List.nil_append, dedupSeen_of_nodup S2 S1 h2]

theorem find?_name_of_nodup (nodes : List Entity) (nm : String) (e : Entity)
    (hnd : (nodes.map (fun n => n.name)).Nodup) (he : e ∈ nodes)
    (hn : e.name = nm) : nodes.find? (fun n => n.name == nm) = some e := by
  induction nodes with
  | nil => cases he
  | cons n rest ih =>
    rcases List.mem_cons.mp he with rfl | hrest
    · have hcond : (e.name == nm) = true := by simp [hn]
      simp only [List.find?_cons, hcond]
    · have hcond : (n.name == nm) = false := by
        simp only [beq_eq_false_iff_ne, ne_eq]
        intro hcontra
        have hmem : nm ∈ rest.map (fun n => n.name) := by
          rw [← hn]
          exact List.mem_map_of_mem _ hrest
        rw [List.map_cons, List.nodup_cons] at hnd
        exact hnd.1 (hcontra ▸ hmem)
      simp only [List.find?_cons, hcond]
      rw [List.map_cons, List.nodup_cons] at hnd
      exact ih hnd.2 hrest

theorem add_observations_single (g : GraphState) (nm : String) (e : Entity)
    (hnd : (nodeNames g).Nodup) (he : e ∈ g.nodes) (hn : e.name = nm)
    (S : List String) :
    add_observations g [⟨nm, S⟩]
      = (obsAppended g nm (S.filter (fun o => decide (o ∉ e.observations))),
         [(nm, S.filter (fun o => decide (o ∉ e.observations)))]) := by
  have hfind := find?_name_of_nodup g.nodes nm e hnd he hn
  simp only [add_observations, hfind]

theorem mem_obsAppended {g : GraphState} {n : Entity} (hm : n ∈ g.nodes)
    (nm : String) (fresh : List String) (hname : n.name = nm) :
    (⟨n.name, n.type, n.observations ++ fresh⟩ : Entity)
      ∈ (obsAppended g nm fresh).nodes := by
  unfold obsAppended
  refine List.mem_map.mpr ⟨n, hm, ?_⟩
  simp [hname]

/-- C1 (amended): for a stored node whose observation list is empty and
duplicate-free input lists `S1`, `S2`, adding `S1` then `S2` leaves the
stored list equal to the ordered deduplication of `S1 ++ S2`, and the
second call reports exactly the elements of `S2` not in `S1`, in `S2`'s
order. -/
theorem add_observations_dedup (g : GraphState) (nm : String) (e : Entity)
    (hnd : (nodeNames g).Nodup) (he : e ∈ g.nodes) (hn : e.name = nm)
    (hobs : e.observations = []) (S1 S2 : List String)
    (h1 : S1.Nodup) (h2 : S2.Nodup) :
    ((add_observations (add_observations g [⟨nm, S1⟩]).1 [⟨nm, S2⟩]).1.nodes.find?
        (fun n => n.name == nm)) = some ⟨nm, e.type, orderedDedup (S1 ++ S2)⟩
    ∧ (add_observations (add_observations g [⟨nm, S1⟩]).1 [⟨nm, S2⟩]).2
        = [(nm, S2.filter (fun o => decide (o ∉ S1)))] := by
  have hf1 : S1.filter (fun o => decide (o ∉ e.observations)) = S1 := by
    rw [hobs]
    apply List.filter_eq_self.mpr
    intro o _
    simp
  have hstep1 := add_observations_single g nm e hnd he hn S1
  rw [hf1] at hstep1
  have hnd1 : (nodeNames (obsAppended g nm S1)).Nodup := by
    rw [nodeNames_obsUpdate]
    exact hnd
  have he1 : (⟨nm, e.type, S1⟩ : Entity) ∈ (obsAppended g nm S1).nodes := by
    have := mem_obsAppended he nm S1 hn
    rw [hn, hobs] at this
    simpa using this
  have hstep2' : add_observations (obsAppended g nm S1) [⟨nm, S2⟩]
      = (obsAppended (obsAppended g nm S1) nm
          (S2.filter (fun o => decide (o ∉ S1))),
         [(nm, S2.filter (fun o => decide (o ∉ S1)))]) :=
    add_observations_single (obsAppended g nm S1) nm ⟨nm, e.type, S1⟩ hnd1 he1 rfl S2
  rw [hstep1]
  show (add_observations (obsAppended g nm S1) [⟨nm, S2⟩]).1.nodes.find?
        (fun n => n.name == nm) = some ⟨nm, e.type, orderedDedup (S1 ++ S2)⟩
    ∧ (add_observations (obsAppended g nm S1) [⟨nm, S2⟩]).2
        = [(nm, S2.filter (fun o => decide (o ∉ S1)))]
  rw [hstep2']
  constructor
  · show (obsAppended (obsAppended g nm S1) nm
        (S2.filter (fun o => decide (o ∉ S1)))).nodes.find?
        (fun n => n.name == nm) = some ⟨nm, e.type, orderedDedup (S1 ++ S2)⟩
    have hnd2 : (nodeNames (obsAppended (obsAppended g nm S1) nm
        (S2.filter (fun o => decide (o ∉ S1))))).Nodup := by
      rw [nodeNames_obsUpdate]
      exact hnd1
    have he2 := mem_obsAppended he1 nm (S2.filter (fun o => decide (o ∉ S1))) rfl
    rw [find?_name_of_nodup _ nm _ hnd2 he2 rfl]
    rw [orderedDedup_append S1 S2 h1 h2]
  · rfl

/-- C1 witness: the amended dedup theorem applied to a one-node store with
empty observations, `S1 = ["a", "c"]` and `S2 = ["b", "c"]`. -/
theorem add_observations_dedup_witness :
    ((nodeNames ⟨[⟨"E", "T", []⟩], []⟩).Nodup ∧
     (⟨"E", "T", []⟩ : Entity) ∈ (⟨[⟨"E", "T", []⟩], []⟩ : GraphState).nodes ∧
     (["a", "c"] : List String).Nodup ∧ (["b", "c"] : List String).Nodup) ∧
    (((add_observations (add_observations ⟨[⟨"E", "T", []⟩], []⟩
        [⟨"E", ["a", "c"]⟩]).1 [⟨"E", ["b", "c"]⟩]).1.nodes.find?
        (fun n => n.name == "E"))
      = some ⟨"E", "T", orderedDedup (["a", "c"] ++ ["b", "c"])⟩
    ∧ (add_observations (add_observations ⟨[⟨"E", "T", []⟩], []⟩
        [⟨"E", ["a", "c"]⟩]).1 [⟨"E", ["b", "c"]⟩]).2
      = [("E", (["b", "c"] : List String).filter
          (fun o => decide (o ∉ (["a", "c"] : List String))))]) :=
  ⟨⟨by decide, by decide, by decide, by decide⟩,
   add_observations_dedup ⟨[⟨"E", "T", []⟩], []⟩ "E" ⟨"E", "T", []⟩
     (by decide) (by decide) (by decide) (by decide) ["a", "c"] ["b", "c"]
     (by decide) (by decide)⟩

/-- C1 counterexample: for the stored node `E` with observations `["x"]`,
adding `S1 = ["a", "a"]` and then `S2 = ["b"]` leaves the stored list
`["x", "a", "a", "b"]` — the pre-existing observation survives and the
duplicated `"a"` is stored twice — which differs from the ordered
deduplication `["a", "b"]` of `S1 ++ S2`. -/
theorem add_observations_dedup_cex :
    ((add_observations (add_observations ⟨[⟨"E", "T", ["x"]⟩], []⟩
        [⟨"E", ["a", "a"]⟩]).1 [⟨"E", ["b"]⟩]).1.nodes.find?
        (fun n => n.name == "E"))
      = some ⟨"E", "T", ["x", "a", "a", "b"]⟩ ∧
    orderedDedup (["a", "a"] ++ ["b"]) = ["a", "b"] ∧
    some (Entity.mk "E" "T" ["x", "a", "a", "b"])
      ≠ some ⟨"E", "T", orderedDedup (["a", "a"] ++ ["b"])⟩ := by
  refine ⟨by decide, by decide, by decide⟩

end EchoMcp
